import Mathlib

/-!
Shallow embedding of `src/single-linked-list/single-linked-list.h`
(`template <typename Type> class SingleLinkedList`).

The observable state of a `SingleLinkedList<Type>` object is the chain of
element nodes hanging off the sentinel `head_` together with the cached
`size_` counter (a `size_t`).  We model the chain as the Lean list of the
node values in chain order and `size_` as a natural number kept below
`2 ^ 64`, with every `++size_` / `--size_` performed modulo `2 ^ 64`
exactly as `size_t` arithmetic does.

Node pointers (the payload of `BasicIterator`) are modelled positionally:
`none` is the null pointer (the `end()` iterator), `some 0` is the address
of the sentinel `head_` (the `before_begin()` iterator) and `some (k+1)`
is the address of the node holding the element of index `k` (0-based) in
chain order.
-/

/-- Number of values of the C++ `size_t` (64-bit) type. -/
def usize : Nat := 2 ^ 64

/-- Number of values of the C++ `int` (32-bit) type. -/
def u32 : Nat := 2 ^ 32

/-- Largest value of the C++ `int` type, `INT_MAX`. -/
def intMax : Nat := 2 ^ 31 - 1

/-- The value of the C++ `int` obtained by converting the `size_t` value
`n % 2^64`: narrowing keeps the low 32 bits, read as two's complement. -/
def int32ofNat (n : Nat) : Int :=
  if n % u32 < 2 ^ 31 then ((n % u32 : Nat) : Int)
  else ((n % u32 : Nat) : Int) - (u32 : Int)

/-- Observable state of a `SingleLinkedList<Type>` object: the values of
the element nodes in chain order (the sentinel `head_` itself holds no
element and is not listed) and the cached `size_` counter. -/
structure SLList (α : Type) where
  elems : List α
  size : Nat
  deriving Repr, DecidableEq

namespace SLList

variable {α : Type}

/-- `SingleLinkedList()`: default constructor, `head_.next_node == nullptr`
and `size_ == 0`. -/
def empty : SLList α := ⟨[], 0⟩

/-- `IsEmpty()`: `head_.next_node == nullptr`, i.e. no first element node. -/
def isEmpty (s : SLList α) : Bool := s.elems.isEmpty

/-- `GetSize()`: returns `size_`, a `size_t`, through the declared return
type `int` — a narrowing conversion. -/
def getSize (s : SLList α) : Int := int32ofNat s.size

/-- `Clear()`: deletes every node, leaving `head_.next_node == nullptr`,
and sets `size_ = 0`. -/
def clear (_s : SLList α) : SLList α := ⟨[], 0⟩

/-- `PushFront(value)`: a new node holding `value` whose successor is the
old first node becomes `head_.next_node`; `++size_`. -/
def pushFront (v : α) (s : SLList α) : SLList α :=
  ⟨v :: s.elems, (s.size + 1) % usize⟩

/-- `PopFront()` as compiled without assertions (`NDEBUG`): the
`assert(!IsEmpty())` is gone and the release guard `if (IsEmpty()) return;`
makes the empty case a no-op; otherwise the first node is unlinked and
deleted and `--size_`. -/
def popFront (s : SLList α) : SLList α :=
  if s.elems.isEmpty then s
  else ⟨s.elems.tail, (s.size + (usize - 1)) % usize⟩

/-- `PopFront()` as compiled with assertions: `assert(!IsEmpty())`
terminates the program (modelled as `none`) on an empty list. -/
def popFrontD (s : SLList α) : Option (SLList α) :=
  if s.elems.isEmpty then none
  else some ⟨s.elems.tail, (s.size + (usize - 1)) % usize⟩

/-- The pointer `node->next_node` of the node at position `p` (`p = 0` is
the sentinel `head_`, `p = k+1` the node of element index `k`), for a
position that actually exists, i.e. `p ≤ s.elems.length`. -/
def posNext (s : SLList α) (p : Nat) : Option Nat :=
  if p < s.elems.length then some (p + 1) else none

/-- `begin()`: `Iterator{head_.next_node}`. -/
def beginPos (s : SLList α) : Option Nat :=
  if s.elems.isEmpty then none else some 1

/-- `end()`: `Iterator{nullptr}`. -/
def endPos : Option Nat := (none : Option Nat)

/-- `before_begin()`: `Iterator{&head_}`, the sentinel position. -/
def beforeBegin : Option Nat := (some 0 : Option Nat)

/-- `InsertAfter(pos, value)`: `assert(pos)` rules out the null iterator
(modelled as `none`, no release-mode guard exists here); otherwise a new
node holding `value` is spliced in right after the node `pos` points to
(element index `i` when `pos` is position `i`), `++size_`, and an iterator
to the new node is returned. -/
def insertAfter (s : SLList α) (pos : Option Nat) (v : α) :
    Option (SLList α × Option Nat) :=
  match pos with
  | none => none
  | some i => some (⟨s.elems.insertIdx i v, (s.size + 1) % usize⟩, some (i + 1))

/-- `EraseAfter(pos)` as compiled without assertions: the release guard
`if (!pos || !pos.node_->next_node) return Iterator{nullptr};` makes a
null `pos` or a `pos` with no successor a no-op returning the end
iterator; otherwise the node after `pos` (element index `i`) is unlinked
and deleted, `--size_`, and `Iterator{pos.node_->next_node}` — the node
now following `pos`, or null — is returned. -/
def eraseAfter (s : SLList α) (pos : Option Nat) : SLList α × Option Nat :=
  match pos with
  | none => (s, none)
  | some i =>
    if i < s.elems.length then
      (⟨s.elems.eraseIdx i, (s.size + (usize - 1)) % usize⟩,
       if i < s.elems.length - 1 then some (i + 1) else none)
    else (s, none)

/-- `EraseAfter(pos)` as compiled with assertions:
`assert(pos && pos.node_->next_node)` terminates the program (modelled as
`none`) when `pos` is null or has no successor. -/
def eraseAfterD (s : SLList α) (pos : Option Nat) :
    Option (SLList α × Option Nat) :=
  match pos with
  | none => none
  | some i =>
    if i < s.elems.length then
      some (⟨s.elems.eraseIdx i, (s.size + (usize - 1)) % usize⟩,
        if i < s.elems.length - 1 then some (i + 1) else none)
    else none

/-- `swap(other)`: exchanges `head_.next_node` and `size_` of the two
objects, i.e. their entire observable states.  The pair is
`(new this, new other)`. -/
def swapOp (a b : SLList α) : SLList α × SLList α := (b, a)

/-- `SingleLinkedList(SingleLinkedList&& other)`: the new object is
default-initialised (`head_.next_node == nullptr`, `size_ == 0`) and then
`swap(other)` runs.  The pair is `(new this, new other)`. -/
def moveCtor (other : SLList α) : SLList α × SLList α :=
  swapOp empty other

/-- `operator=(SingleLinkedList&& other)`: the body is
`if (this != &other) { this = &other; } return *this;`.  The statement
`this = &other;` assigns to the prvalue `this`, which is ill-formed C++
and, under any reading, modifies neither object's node chain nor either
`size_`; no element is transferred.  We model the closest compiling
reading: both objects keep their states.  `same` is `this == &other`.
The pair is `(new this, new other)`. -/
def moveAssign (_same : Bool) (self other : SLList α) : SLList α × SLList α :=
  (self, other)

/-- `Initialize(container)`: walks `container` in order keeping a pointer
`node` to the last node built, appends a fresh node holding a copy of each
element at the tail of a temporary list `temp`, incrementing
`temp.size_` each time, and finally commits with `swap(temp)`.  The
resulting state is the final `temp`. -/
def initFromList (l : List α) : SLList α :=
  l.foldl (fun t e => ⟨t.elems ++ [e], (t.size + 1) % usize⟩) empty

/-- `operator=(const SingleLinkedList& other)`:
`if (this != &other) Initialize(other);` — `same` is `this == &other`;
when the objects differ, `Initialize` rebuilds a fresh chain from
`other`'s elements in order and commits it by swap. -/
def copyAssign (same : Bool) (self other : SLList α) : SLList α :=
  if same then self else initFromList other.elems

/-- Free `operator==`: pointer-identical operands short-circuit to `true`
(omitted here: identical objects have identical states, so the fast path
never changes the result), unequal `GetSize()` values short-circuit to
`false`, otherwise `std::equal(l.begin(), l.end(), r.begin(), r.end())`
compares the two ranges, lengths included. -/
def eqSLL [DecidableEq α] (a b : SLList α) : Bool :=
  if a.getSize ≠ b.getSize then false
  else a.elems = b.elems

/-- Free `operator!=`: `!(left == right)`. -/
def neSLL [DecidableEq α] (a b : SLList α) : Bool := !eqSLL a b

/-- `std::lexicographical_compare(first1, last1, first2, last2)` with the
default `operator<` on elements. -/
def lexLt [LinearOrder α] : List α → List α → Bool
  | _, [] => false
  | [], _ :: _ => true
  | x :: xs, y :: ys =>
    if x < y then true
    else if y < x then false
    else lexLt xs ys

/-- Free `operator<`: lexicographical comparison of the two element
ranges. -/
def ltSLL [LinearOrder α] (a b : SLList α) : Bool := lexLt a.elems b.elems

/-- Free `operator<=`: `!(right < left)`. -/
def leSLL [LinearOrder α] (a b : SLList α) : Bool := !ltSLL b a

/-- Free `operator>`: `right < left`. -/
def gtSLL [LinearOrder α] (a b : SLList α) : Bool := ltSLL b a

/-- Free `operator>=`: `!(left < right)`. -/
def geSLL [LinearOrder α] (a b : SLList α) : Bool := !ltSLL a b

/-- Dereference (`operator*`) of the iterator at position `p`: the
sentinel (`p = 0`) holds no element (its default-constructed value is
never read), position `k + 1` holds the element of index `k`. -/
def valueAt (s : SLList α) : Nat → Option α
  | 0 => none
  | k + 1 => s.elems[k]?

/-- Number of iterator steps from a given position until the null (end)
position, following `node_->next_node` as `operator++` does; the fuel
argument bounds the walk (a valid walk needs at most `length + 1` steps). -/
def countSteps (s : SLList α) : Nat → Option Nat → Nat
  | _, none => 0
  | 0, some _ => 0
  | fuel + 1, some p => 1 + countSteps s fuel (posNext s p)

/-- Number of nodes traversed from `begin()` to `end()`. -/
def travCount (s : SLList α) : Nat :=
  countSteps s (s.elems.length + 1) (beginPos s)

/-- Values read by dereferencing each node on a walk from a given
position to the null (end) position; the fuel argument bounds the walk. -/
def listSteps (s : SLList α) : Nat → Option Nat → List α
  | _, none => []
  | 0, some _ => []
  | fuel + 1, some p =>
    match valueAt s p with
    | none => []
    | some v => v :: listSteps s fuel (posNext s p)

/-- The sequence of values produced by traversing from `begin()` to
`end()`, dereferencing each node. -/
def travList (s : SLList α) : List α :=
  listSteps s (s.elems.length + 1) (beginPos s)

/-- A non-null iterator value that may legally be passed to
`InsertAfter` / `EraseAfter` of this list points either to the sentinel
(`before_begin()`, position `0`) or to one of the list's `length` element
nodes; anything else is a dangling pointer and undefined behaviour in the
source. -/
def validPos (s : SLList α) (pos : Option Nat) : Prop :=
  ∀ i, pos = some i → i ≤ s.elems.length

/-- Well-formedness invariant tying the cached `size_` to the chain: the
counter equals the number of element nodes, as a `size_t` value. -/
def WF (s : SLList α) : Prop := s.size = s.elems.length % usize

/-- States of a `SingleLinkedList` reachable by the public interface:
construction (default, from a literal sequence, copy, move), `PushFront`,
`InsertAfter`, `PopFront`, `EraseAfter`, `Clear`, `swap`, copy and move
assignment. -/
inductive Reachable : SLList α → Prop
  | default : Reachable empty
  | ofSeq (l : List α) : Reachable (initFromList l)
  | push {s : SLList α} (v : α) : Reachable s → Reachable (pushFront v s)
  | insert {s s' : SLList α} {pos r : Option Nat} {v : α} :
      Reachable s → validPos s pos → insertAfter s pos v = some (s', r) →
      Reachable s'
  | pop {s : SLList α} : Reachable s → Reachable (popFront s)
  | erase {s : SLList α} (pos : Option Nat) :
      Reachable s → validPos s pos → Reachable (eraseAfter s pos).1
  | clears {s : SLList α} : Reachable s → Reachable (clear s)
  | swapL {a b : SLList α} : Reachable a → Reachable b →
      Reachable (swapOp a b).1
  | swapR {a b : SLList α} : Reachable a → Reachable b →
      Reachable (swapOp a b).2
  | moveNew {s : SLList α} : Reachable s → Reachable (moveCtor s).1
  | moveOld {s : SLList α} : Reachable s → Reachable (moveCtor s).2
  | copyAsgn {a b : SLList α} (same : Bool) : Reachable a → Reachable b →
      (same = true → a = b) → Reachable (copyAssign same a b)
  | moveAsgnL {a b : SLList α} (same : Bool) : Reachable a → Reachable b →
      Reachable (moveAssign same a b).1
  | moveAsgnR {a b : SLList α} (same : Bool) : Reachable a → Reachable b →
      Reachable (moveAssign same a b).2

/-- The list built by `n` successive `PushFront(0)` calls on a
default-constructed `SingleLinkedList<int>`. -/
def pushN : Nat → SLList Int
  | 0 => empty
  | n + 1 => pushFront 0 (pushN n)

end SLList

namespace SLList

variable {α : Type}

theorem usize_pos : 0 < usize := by norm_num [usize]

theorem foldl_init (l : List α) : ∀ (e : List α) (n : Nat), n < usize →
    List.foldl (fun t x => SLList.mk (t.elems ++ [x]) ((t.size + 1) % usize))
      ⟨e, n⟩ l = ⟨e ++ l, (n + l.length) % usize⟩ := by
  induction l with
  | nil =>
    intro e n hn
    simp [Nat.mod_eq_of_lt hn]
  | cons x xs ih =>
    intro e n hn
    rw [List.foldl_cons]
    rw [ih (e ++ [x]) ((n + 1) % usize) (Nat.mod_lt _ usize_pos)]
    refine congrArg₂ SLList.mk (by simp) ?_
    rw [Nat.mod_add_mod]
    congr 1
    simp
    omega

theorem initFromList_eq (l : List α) :
    initFromList l = ⟨l, l.length % usize⟩ := by
  have h := foldl_init l [] 0 usize_pos
  simpa [initFromList, empty] using h

theorem countSteps_walk (s : SLList α) : ∀ (fuel p : Nat), 1 ≤ p →
    p ≤ s.elems.length → s.elems.length - p + 1 ≤ fuel →
    countSteps s fuel (some p) = s.elems.length - p + 1 := by
  intro fuel
  induction fuel with
  | zero =>
    intro p _ _ h3
    omega
  | succ n ih =>
    intro p h1 h2 _
    rw [countSteps, posNext]
    by_cases h : p < s.elems.length
    · rw [if_pos h, ih (p + 1) (by omega) (by omega) (by omega)]
      omega
    · rw [if_neg h, countSteps]
      omega

theorem countSteps_none (s : SLList α) (fuel : Nat) :
    countSteps s fuel none = 0 := by
  cases fuel <;> rfl

theorem travCount_eq (s : SLList α) : travCount s = s.elems.length := by
  rw [travCount, beginPos]
  by_cases h : s.elems.isEmpty
  · rw [if_pos h, countSteps_none]
    simp [List.isEmpty_iff] at h
    simp [h]
  · rw [if_neg h]
    have hlen : 1 ≤ s.elems.length :=
      List.length_pos.mpr (by simpa [List.isEmpty_iff] using h)
    rw [countSteps_walk s _ 1 le_rfl hlen (by omega)]
    omega

theorem listSteps_walk (s : SLList α) : ∀ (fuel p : Nat), 1 ≤ p →
    p ≤ s.elems.length → s.elems.length - p + 1 ≤ fuel →
    listSteps s fuel (some p) = s.elems.drop (p - 1) := by
  intro fuel
  induction fuel with
  | zero =>
    intro p _ _ h3
    omega
  | succ n ih =>
    intro p h1 h2 _
    obtain ⟨k, rfl⟩ : ∃ k, p = k + 1 := ⟨p - 1, by omega⟩
    have hk : k < s.elems.length := by omega
    rw [listSteps, valueAt, List.getElem?_eq_getElem hk]
    simp only
    rw [posNext]
    by_cases h : k + 1 < s.elems.length
    · rw [if_pos h, ih (k + 2) (by omega) (by omega) (by omega)]
      simp only [Nat.add_sub_cancel]
      rw [List.drop_eq_getElem_cons hk]
      norm_num
    · rw [if_neg h]
      have h0 : listSteps s n none = [] := by cases n <;> rfl
      have hdrop : s.elems.drop (k + 1) = [] := List.drop_eq_nil_of_le (by omega)
      rw [h0]
      simp only [Nat.add_sub_cancel]
      rw [List.drop_eq_getElem_cons hk, hdrop]

theorem mod_usize_add_one (n : Nat) : (n % usize + 1) % usize = (n + 1) % usize :=
  Nat.mod_add_mod n usize 1

theorem mod_usize_sub_one {n : Nat} (h : 1 ≤ n) :
    (n % usize + (usize - 1)) % usize = (n - 1) % usize := by
  rw [Nat.mod_add_mod]
  have : n + (usize - 1) = (n - 1) + usize := by
    have := usize_pos
    omega
  rw [this, Nat.add_mod_right]

theorem wf_empty : WF (empty : SLList α) := by
  simp [WF, empty]

theorem wf_initFromList (l : List α) : WF (initFromList l) := by
  rw [initFromList_eq, WF]

theorem wf_pushFront {s : SLList α} (v : α) (h : WF s) :
    WF (pushFront v s) := by
  simp only [WF, pushFront, List.length_cons]
  rw [h, mod_usize_add_one]

theorem wf_insertAfter {s s' : SLList α} {pos r : Option Nat} {v : α}
    (h : WF s) (hv : validPos s pos)
    (heq : insertAfter s pos v = some (s', r)) : WF s' := by
  cases pos with
  | none => simp [insertAfter] at heq
  | some i =>
    have hi : i ≤ s.elems.length := hv i rfl
    simp only [insertAfter, Option.some.injEq, Prod.mk.injEq] at heq
    obtain ⟨h1, -⟩ := heq
    subst h1
    simp only [WF]
    rw [List.length_insertIdx i _ hi, h, mod_usize_add_one]

theorem wf_popFront {s : SLList α} (h : WF s) : WF (popFront s) := by
  simp only [popFront]
  by_cases he : s.elems.isEmpty
  · rw [if_pos he]; exact h
  · rw [if_neg he]
    have hlen : 1 ≤ s.elems.length :=
      List.length_pos.mpr (by simpa [List.isEmpty_iff] using he)
    simp only [WF, List.length_tail]
    rw [h, mod_usize_sub_one hlen]

theorem wf_eraseAfter {s : SLList α} {pos : Option Nat}
    (h : WF s) (hv : validPos s pos) : WF (eraseAfter s pos).1 := by
  cases pos with
  | none => exact h
  | some i =>
    simp only [eraseAfter]
    by_cases hlt : i < s.elems.length
    · rw [if_pos hlt]
      simp only [WF]
      rw [List.length_eraseIdx_of_lt hlt, h, mod_usize_sub_one (by omega)]
    · rw [if_neg hlt]; exact h

theorem wf_copyAssign {a b : SLList α} (same : Bool) (ha : WF a) :
    WF (copyAssign same a b) := by
  simp only [copyAssign]
  split
  · exact ha
  · exact wf_initFromList _

theorem reachable_wf {s : SLList α} (h : Reachable s) : WF s := by
  induction h with
  | default => exact wf_empty
  | ofSeq l => exact wf_initFromList l
  | push v _ ih => exact wf_pushFront v ih
  | insert _ hv heq ih => exact wf_insertAfter ih hv heq
  | pop _ ih => exact wf_popFront ih
  | erase pos _ hv ih => exact wf_eraseAfter ih hv
  | clears _ _ => simp [WF, clear]
  | swapL _ _ _ ihb => exact ihb
  | swapR _ _ iha _ => exact iha
  | moveNew _ ih => exact ih
  | moveOld _ _ => exact wf_empty
  | copyAsgn same _ _ _ iha _ => exact wf_copyAssign same iha
  | moveAsgnL same _ _ iha _ => exact iha
  | moveAsgnR same _ _ _ ihb => exact ihb

theorem travList_eq (s : SLList α) : travList s = s.elems := by
  rw [travList, beginPos]
  by_cases h : s.elems.isEmpty
  · rw [if_pos h]
    have : ∀ fuel, listSteps s fuel none = [] := by intro fuel; cases fuel <;> rfl
    rw [this]
    simp [List.isEmpty_iff] at h
    exact h.symm
  · rw [if_neg h]
    have hlen : 1 ≤ s.elems.length :=
      List.length_pos.mpr (by simpa [List.isEmpty_iff] using h)
    rw [listSteps_walk s _ 1 le_rfl hlen (by omega)]
    simp

theorem u32_pos : 0 < u32 := by norm_num [u32]

theorem int32ofNat_small {n : Nat} (h : n < 2 ^ 31) : int32ofNat n = n := by
  have hn32 : n % u32 = n := Nat.mod_eq_of_lt (by norm_num [u32]; omega)
  rw [int32ofNat, hn32, if_pos h]

theorem int32ofNat_eq_iff (a b : Nat) :
    int32ofNat a = int32ofNat b ↔ a % u32 = b % u32 := by
  have ha : a % u32 < u32 := Nat.mod_lt _ u32_pos
  have hb : b % u32 < u32 := Nat.mod_lt _ u32_pos
  rw [int32ofNat, int32ofNat]
  simp only [u32] at ha hb ⊢
  constructor
  · intro h
    split_ifs at h <;> omega
  · intro h
    rw [h]

theorem getSize_of_wf_small {s : SLList α} (h : WF s)
    (hlen : s.elems.length ≤ intMax) : getSize s = s.elems.length := by
  have hsz : s.size = s.elems.length := by
    rw [h]
    exact Nat.mod_eq_of_lt (by norm_num [usize, intMax] at hlen ⊢; omega)
  rw [getSize, hsz]
  exact int32ofNat_small (by norm_num [intMax] at hlen; omega)

theorem initFromList_elems (l : List α) : (initFromList l).elems = l := by
  rw [initFromList_eq]

theorem int32ofNat_mod_usize (n : Nat) :
    int32ofNat (n % usize) = int32ofNat n := by
  rw [int32ofNat_eq_iff]
  refine Nat.mod_mod_of_dvd n ?_
  show (2 : Nat) ^ 32 ∣ 2 ^ 64
  exact pow_dvd_pow 2 (by norm_num)

theorem getSize_eq_int32_len {s : SLList α} (h : WF s) :
    getSize s = int32ofNat s.elems.length := by
  rw [getSize, h, int32ofNat_mod_usize]

theorem int32ofNat_2pow31 : int32ofNat (2 ^ 31) = -(2 ^ 31) := by
  norm_num [int32ofNat, u32]

theorem eqSLL_iff [DecidableEq α] {a b : SLList α} (ha : WF a) (hb : WF b) :
    eqSLL a b = true ↔ a.elems = b.elems := by
  unfold eqSLL
  by_cases h : a.getSize = b.getSize
  · simp [h]
  · simp only [h, ne_eq, not_false_eq_true, if_true]
    constructor
    · intro hfalse
      cases hfalse
    · intro heq
      exfalso
      apply h
      rw [getSize, getSize, ha, hb, heq]

theorem lexLt_iff [LinearOrder α] :
    ∀ (xs ys : List α), lexLt xs ys = true ↔ List.Lex (· < ·) xs ys := by
  intro xs
  induction xs with
  | nil =>
    intro ys
    cases ys with
    | nil => simp [lexLt]
    | cons y ys => simp [lexLt]; exact List.Lex.nil
  | cons x xs ih =>
    intro ys
    cases ys with
    | nil => simp [lexLt]
    | cons y ys =>
      simp only [lexLt]
      by_cases h1 : x < y
      · simp only [h1, if_true, true_iff]
        exact List.Lex.rel h1
      · rw [if_neg h1]
        by_cases h2 : y < x
        · rw [if_pos h2]
          simp only [Bool.false_eq_true, false_iff]
          intro hlex
          cases hlex with
          | cons h => exact absurd h2 (lt_irrefl x)
          | rel h => exact absurd h h1
        · rw [if_neg h2]
          have hxy : x = y := le_antisymm (not_lt.mp h2) (not_lt.mp h1)
          subst hxy
          rw [ih ys]
          exact Iff.symm List.Lex.cons_iff

theorem pushN_elems (n : Nat) : (pushN n).elems = List.replicate n 0 := by
  induction n with
  | zero => rfl
  | succ k ih => simp [pushN, pushFront, ih, List.replicate_succ]

theorem pushN_size (n : Nat) : (pushN n).size = n % usize := by
  induction n with
  | zero => rfl
  | succ k ih =>
    simp only [pushN, pushFront]
    rw [ih, mod_usize_add_one]

theorem pushN_reachable (n : Nat) : Reachable (pushN n) := by
  induction n with
  | zero => exact Reachable.default
  | succ k ih => exact Reachable.push 0 ih

end SLList

open SLList

/-- Claim C3: with the precondition assertion compiled out, `PopFront()`
on an empty list leaves the list unchanged (safe no-op), and
`EraseAfter(pos)` with a past-the-end `pos` (null) or a `pos` whose
successor is absent leaves the list unchanged and returns the end (null)
iterator; in builds with assertions both violations trip the assert
(modelled by the `D` variants returning `none`). -/
theorem popFront_eraseAfter_degrade_safely (α : Type) (s : SLList α)
    (i : Nat) :
    (s.elems = [] → popFront s = s ∧ popFrontD s = none) ∧
    (eraseAfter s none = (s, none) ∧ eraseAfterD s none = none) ∧
    (s.elems.length ≤ i → eraseAfter s (some i) = (s, none) ∧
      eraseAfterD s (some i) = none) := by
  refine ⟨fun h => ?_, ⟨rfl, rfl⟩, fun h => ?_⟩
  · simp [popFront, popFrontD, h]
  · have hnlt : ¬ i < s.elems.length := by omega
    simp [eraseAfter, eraseAfterD, hnlt]

/-- Witness for C3 at the empty `SingleLinkedList<int>` and the dangling
successor position `2`. -/
theorem popFront_eraseAfter_degrade_safely_witness :
    popFront (SLList.empty : SLList Int) = SLList.empty ∧
    popFrontD (SLList.empty : SLList Int) = none ∧
    eraseAfter (SLList.empty : SLList Int) (some 2) = (SLList.empty, none) ∧
    eraseAfterD (SLList.empty : SLList Int) (some 2) = none := by
  have h := popFront_eraseAfter_degrade_safely Int SLList.empty 2
  exact ⟨(h.1 rfl).1, (h.1 rfl).2, (h.2.2 (by decide)).1, (h.2.2 (by decide)).2⟩

/-- Claim C4: the initializer-list constructor builds a list whose
traversal from `begin()` to `end()` yields exactly the input sequence in
the same order, and whose size equals the input length (`size_` exactly —
an `initializer_list` length is a `size_t`, hence below `2^64` — and
`GetSize()` whenever the length fits in `int`). -/
theorem initFromList_roundtrip (α : Type) (l : List α) :
    travList (initFromList l) = l ∧
    (l.length < usize → (initFromList l).size = l.length) ∧
    (l.length ≤ intMax → getSize (initFromList l) = l.length) := by
  simp only [initFromList_eq]
  refine ⟨?_, fun h => Nat.mod_eq_of_lt h, fun h => ?_⟩
  · have ht := travList_eq (⟨l, l.length % usize⟩ : SLList α)
    simpa using ht
  · have hg := getSize_of_wf_small (s := (⟨l, l.length % usize⟩ : SLList α))
      rfl h
    simpa using hg

/-- Witness for C4 at the literal sequence `{5, 6, 7}`. -/
theorem initFromList_roundtrip_witness :
    travList (initFromList ([5, 6, 7] : List Int)) = [5, 6, 7] ∧
    (initFromList ([5, 6, 7] : List Int)).size = 3 ∧
    getSize (initFromList ([5, 6, 7] : List Int)) = 3 := by
  have h := initFromList_roundtrip Int [5, 6, 7]
  refine ⟨h.1, ?_, ?_⟩
  · have := h.2.1 (by norm_num [usize])
    simpa using this
  · have := h.2.2 (by norm_num [intMax])
    simpa using this

/-- Claim C8: `InsertAfter(before_begin(), v)` produces exactly the state
`PushFront(v)` produces, and returns an iterator referencing the newly
inserted first element. -/
theorem insertAfter_beforeBegin_eq_pushFront (α : Type) (s : SLList α)
    (v : α) :
    insertAfter s beforeBegin v = some (pushFront v s, some 1) ∧
    valueAt (pushFront v s) 1 = some v := by
  constructor
  · simp [insertAfter, beforeBegin, pushFront]
  · simp [valueAt, pushFront]

/-- Claim C9: move-construction is `swap` with a default-constructed
list: the new object takes the source's entire state (elements in order
and size), and the source is left exactly empty — `GetSize() == 0` and
`begin() == end()`. -/
theorem moveCtor_transfers_and_empties (α : Type) (s : SLList α) :
    moveCtor s = swapOp SLList.empty s ∧
    (moveCtor s).1 = s ∧
    getSize (moveCtor s).2 = 0 ∧
    (moveCtor s).2.size = 0 ∧
    (moveCtor s).2.isEmpty = true ∧
    beginPos (moveCtor s).2 = endPos := by
  refine ⟨rfl, rfl, ?_, rfl, rfl, rfl⟩
  have h0 := int32ofNat_small (n := 0) (by norm_num)
  simpa [getSize, moveCtor, swapOp, SLList.empty] using h0

/-- Claim C1: the move-assignment operator's body is
`if (this != &other) { this = &other; }` — an assignment to the prvalue
`this`, ill-formed C++, which under any reading relinks no node and
copies no size: with A = [1] and B = [], after `B = std::move(A)` the
destination B is still empty (it does not hold A's former element) and
the source A still holds its element with `GetSize() == 1`, contradicting
the claimed transfer-and-empty-source behaviour. -/
theorem moveAssign_transfers_nothing :
    moveAssign false (SLList.empty : SLList Int) ⟨[1], 1⟩
      = (SLList.empty, ⟨[1], 1⟩) ∧
    (moveAssign false (SLList.empty : SLList Int) ⟨[1], 1⟩).1.elems ≠ [1] ∧
    (moveAssign false (SLList.empty : SLList Int) ⟨[1], 1⟩).2.isEmpty
      = false ∧
    getSize (moveAssign false (SLList.empty : SLList Int) ⟨[1], 1⟩).2 ≠ 0 := by
  refine ⟨rfl, by decide, rfl, ?_⟩
  have h1 := int32ofNat_small (n := 1) (by norm_num)
  simp [getSize, moveAssign, h1]

/-- Claim C6: for a valid `pos` (position `i`, sentinel or element node)
whose successor exists (`i < length`), `EraseAfter(pos)` removes exactly
the element immediately after `pos` — the prefix before it and the suffix
after it are untouched — decrements the size by one, and returns an
iterator to the node now following `pos` (the successor of `pos` in the
updated list), which is the end iterator exactly when the removed node
was the last. -/
theorem eraseAfter_removes_successor (α : Type) (s : SLList α) (i : Nat)
    (hwf : WF s) (hbound : s.elems.length < usize)
    (hi : i < s.elems.length) :
    (eraseAfter s (some i)).1.elems
      = s.elems.take i ++ s.elems.drop (i + 1) ∧
    s.size = s.elems.length ∧
    (eraseAfter s (some i)).1.size = s.size - 1 ∧
    (eraseAfter s (some i)).2 = posNext (eraseAfter s (some i)).1 i ∧
    ((eraseAfter s (some i)).2 = none ↔ i = s.elems.length - 1) := by
  have hsz : s.size = s.elems.length := by
    rw [hwf]
    exact Nat.mod_eq_of_lt hbound
  simp only [eraseAfter, if_pos hi]
  refine ⟨List.eraseIdx_eq_take_drop_succ s.elems i, hsz, ?_, ?_, ?_⟩
  · rw [hsz]
    have harith : s.elems.length + (usize - 1)
        = (s.elems.length - 1) + usize := by
      have := usize_pos
      omega
    rw [harith, Nat.add_mod_right]
    exact Nat.mod_eq_of_lt (by omega)
  · rw [posNext, List.length_eraseIdx_of_lt hi]
  · by_cases hlast : i < s.elems.length - 1
    · rw [if_pos hlast]
      simp
      omega
    · rw [if_neg hlast]
      simp
      omega

/-- Witness for C6: erasing after position 1 in `[0, 1, 2, 3]` removes
the element `1`, leaves size 3 and returns the iterator to the node now
holding `2`. -/
theorem eraseAfter_removes_successor_witness :
    (eraseAfter (⟨[0, 1, 2, 3], 4⟩ : SLList Int) (some 1)).1.elems
      = [0, 2, 3] ∧
    (eraseAfter (⟨[0, 1, 2, 3], 4⟩ : SLList Int) (some 1)).1.size = 3 ∧
    (eraseAfter (⟨[0, 1, 2, 3], 4⟩ : SLList Int) (some 1)).2 = some 2 := by
  have h := eraseAfter_removes_successor Int ⟨[0, 1, 2, 3], 4⟩ 1
    (by rfl) (by norm_num [usize]) (by norm_num)
  refine ⟨by rw [h.1]; rfl, by rw [h.2.2.1]; rfl, ?_⟩
  rw [h.2.2.2.1]
  rfl

/-- Claim C7: `operator==` is true exactly on equal sizes with
elementwise-equal contents in order; `operator<` decides the
lexicographic strict order on the element sequences; `!=`, `<=`, `>`,
`>=` are the corresponding negation and duals of `==` and `<`. -/
theorem comparisons_spec (α : Type) [LinearOrder α] [DecidableEq α]
    (a b : SLList α) (ha : WF a) (hb : WF b) :
    (eqSLL a b = true ↔
      (a.elems.length = b.elems.length ∧ a.elems = b.elems)) ∧
    (ltSLL a b = true ↔ List.Lex (· < ·) a.elems b.elems) ∧
    (neSLL a b = true ↔ ¬ a.elems = b.elems) ∧
    (leSLL a b = true ↔ ¬ List.Lex (· < ·) b.elems a.elems) ∧
    (gtSLL a b = true ↔ List.Lex (· < ·) b.elems a.elems) ∧
    (geSLL a b = true ↔ ¬ List.Lex (· < ·) a.elems b.elems) := by
  refine ⟨?_, lexLt_iff a.elems b.elems, ?_, ?_, lexLt_iff b.elems a.elems,
    ?_⟩
  · rw [eqSLL_iff ha hb]
    exact ⟨fun h => ⟨by rw [h], h⟩, fun h => h.2⟩
  · simp only [neSLL, Bool.not_eq_true', Bool.eq_false_iff, ne_eq,
      eqSLL_iff ha hb]
  · simp only [leSLL, ltSLL, Bool.not_eq_true', Bool.eq_false_iff, ne_eq,
      lexLt_iff b.elems a.elems]
  · simp only [geSLL, ltSLL, Bool.not_eq_true', Bool.eq_false_iff, ne_eq,
      lexLt_iff a.elems b.elems]

/-- Witness for C7 on the spec's sample comparisons:
`[1,2,3] < [1,2,4]`, `[1,2] < [1,2,3]`, `[] < [1]`,
`[1,2,3] == [1,2,3]`. -/
theorem comparisons_spec_witness :
    ltSLL (⟨[1, 2, 3], 3⟩ : SLList Int) ⟨[1, 2, 4], 3⟩ = true ∧
    ltSLL (⟨[1, 2], 2⟩ : SLList Int) ⟨[1, 2, 3], 3⟩ = true ∧
    ltSLL (⟨[], 0⟩ : SLList Int) ⟨[1], 1⟩ = true ∧
    eqSLL (⟨[1, 2, 3], 3⟩ : SLList Int) ⟨[1, 2, 3], 3⟩ = true := by
  have h1 := comparisons_spec Int (⟨[1, 2, 3], 3⟩ : SLList Int)
    ⟨[1, 2, 4], 3⟩ (by rfl) (by rfl)
  have h2 := comparisons_spec Int (⟨[1, 2], 2⟩ : SLList Int)
    ⟨[1, 2, 3], 3⟩ (by rfl) (by rfl)
  have h3 := comparisons_spec Int (⟨[], 0⟩ : SLList Int) ⟨[1], 1⟩
    (by rfl) (by rfl)
  have h4 := comparisons_spec Int (⟨[1, 2, 3], 3⟩ : SLList Int)
    ⟨[1, 2, 3], 3⟩ (by rfl) (by rfl)
  refine ⟨h1.2.1.mpr ?_, h2.2.1.mpr ?_, h3.2.1.mpr ?_, h4.1.mpr ⟨rfl, rfl⟩⟩
  · exact List.Lex.cons (List.Lex.cons (List.Lex.rel (by norm_num)))
  · exact List.Lex.cons (List.Lex.cons List.Lex.nil)
  · exact List.Lex.nil

/-- Claim C5: copy assignment with `this == &other` takes the no-op
branch; copying a list produces a list that compares equal to the source
and holds the same element sequence in the same order (the chain is
rebuilt node by node from the source, not shared); mutating the copy
afterwards (here: a `PushFront`) makes it compare unequal to the source,
whose state a mutation of the copy cannot touch. -/
theorem copyAssign_deep_copy (α : Type) [DecidableEq α] (a b : SLList α)
    (v : α) (ha : WF a) :
    copyAssign true a a = a ∧
    eqSLL (copyAssign false b a) a = true ∧
    eqSLL a (copyAssign false b a) = true ∧
    (copyAssign false b a).elems = a.elems ∧
    eqSLL (pushFront v (copyAssign false b a)) a = false := by
  have hwfc : WF (copyAssign false b a) := wf_initFromList a.elems
  have helems : (copyAssign false b a).elems = a.elems := by
    show (initFromList a.elems).elems = a.elems
    rw [initFromList_eq]
  refine ⟨rfl, (eqSLL_iff hwfc ha).mpr helems,
    (eqSLL_iff ha hwfc).mpr helems.symm, helems, ?_⟩
  rw [Bool.eq_false_iff, ne_eq, eqSLL_iff (wf_pushFront v hwfc) ha]
  show ¬ (v :: (copyAssign false b a).elems = a.elems)
  rw [helems]
  exact List.cons_ne_self v a.elems

/-- Witness for C5 at A = [1,2], B = [9], v = 7. -/
theorem copyAssign_deep_copy_witness :
    copyAssign true (⟨[1, 2], 2⟩ : SLList Int) ⟨[1, 2], 2⟩ = ⟨[1, 2], 2⟩ ∧
    eqSLL (copyAssign false (⟨[9], 1⟩ : SLList Int) ⟨[1, 2], 2⟩)
      ⟨[1, 2], 2⟩ = true ∧
    eqSLL (pushFront 7 (copyAssign false (⟨[9], 1⟩ : SLList Int)
      ⟨[1, 2], 2⟩)) ⟨[1, 2], 2⟩ = false := by
  have h := copyAssign_deep_copy Int (⟨[1, 2], 2⟩ : SLList Int) ⟨[9], 1⟩ 7
    (by rfl)
  exact ⟨h.1, h.2.1, h.2.2.2.2⟩

/-- Claim C10: `GetSize()` is the `size_t` counter narrowed to `int`: it
equals the true node count whenever that count is at most `INT_MAX`, and
for larger counts the narrowed value can differ — at `2^31` nodes it is
negative and unequal to the count. -/
theorem getSize_narrowing :
    (∀ (α : Type) (s : SLList α), WF s → s.elems.length ≤ intMax →
      getSize s = s.elems.length) ∧
    (∃ s : SLList Int, WF s ∧ intMax < s.elems.length ∧ getSize s < 0 ∧
      getSize s ≠ s.elems.length) := by
  have hwf := wf_initFromList (List.replicate (2 ^ 31) (0 : Int))
  have hgs : getSize (initFromList (List.replicate (2 ^ 31) (0 : Int)))
      = -(2 ^ 31) := by
    rw [getSize_eq_int32_len hwf, initFromList_elems, List.length_replicate,
      int32ofNat_2pow31]
  refine ⟨fun α s hwf h => getSize_of_wf_small hwf h,
    initFromList (List.replicate (2 ^ 31) 0), hwf, ?_, ?_, ?_⟩
  · rw [initFromList_elems, List.length_replicate]
    norm_num [intMax]
  · rw [hgs]
    norm_num
  · rw [hgs, initFromList_elems, List.length_replicate]
    norm_num

/-- Claim C2 counterexample: the `SingleLinkedList<int>` reached by
`2^31` `PushFront` calls has `2^31` nodes between `begin()` and `end()`,
yet `GetSize()` — an `int` — returns `-2^31`, not the traversal count. -/
theorem getSize_ne_travCount_at_2pow31 :
    Reachable (pushN (2 ^ 31)) ∧
    travCount (pushN (2 ^ 31)) = 2 ^ 31 ∧
    getSize (pushN (2 ^ 31)) = -(2 ^ 31) ∧
    getSize (pushN (2 ^ 31)) ≠ (travCount (pushN (2 ^ 31)) : Int) := by
  have hlen : (pushN (2 ^ 31)).elems.length = 2 ^ 31 := by
    rw [pushN_elems, List.length_replicate]
  have htc : travCount (pushN (2 ^ 31)) = 2 ^ 31 := by
    rw [travCount_eq, hlen]
  have hgs : getSize (pushN (2 ^ 31)) = -(2 ^ 31) := by
    rw [getSize, pushN_size, int32ofNat_mod_usize, int32ofNat_2pow31]
  refine ⟨pushN_reachable _, htc, hgs, ?_⟩
  rw [hgs, htc]
  norm_num

/-- Claim C2 (amended): for every list reachable by any sequence of the
public operations, the cached `size_` counter equals the number of nodes
traversed from `begin()` to `end()` as a `size_t` value — so `GetSize()`
equals that count whenever the count is at most `INT_MAX` (beyond that
the `int` narrowing can diverge, see the counterexample); the sentinel
head node is never counted and is never reachable from `begin()`. -/
theorem size_matches_traversal (α : Type) (s : SLList α)
    (h : Reachable s) :
    travCount s = s.elems.length ∧
    s.size = travCount s % usize ∧
    (travCount s ≤ intMax → getSize s = travCount s) ∧
    beginPos s ≠ some 0 ∧
    (∀ p : Nat, posNext s p ≠ some 0) := by
  have hwf := reachable_wf h
  have htc := travCount_eq s
  refine ⟨htc, by rw [htc]; exact hwf, fun hlen => ?_, ?_, fun p => ?_⟩
  · rw [htc]
    exact getSize_of_wf_small hwf (htc ▸ hlen)
  · rw [beginPos]
    split_ifs <;> simp
  · rw [posNext]
    split_ifs <;> simp

/-- Witness for the amended C2 at the list built by two pushes. -/
theorem size_matches_traversal_witness :
    travCount (pushN 2) = 2 ∧ (pushN 2).size = 2 ∧
    getSize (pushN 2) = 2 := by
  have h := size_matches_traversal Int (pushN 2) (pushN_reachable 2)
  have hlen : travCount (pushN 2) = 2 := by
    rw [h.1, pushN_elems]
    rfl
  refine ⟨hlen, ?_, ?_⟩
  · rw [h.2.1, hlen]
    norm_num [usize]
  · have hg := h.2.2.1 (by rw [hlen]; norm_num [intMax])
    rw [hg, hlen]
    norm_num

/-- Witness for C10 at the two-element list [4, 5]. -/
theorem getSize_narrowing_witness :
    getSize (⟨[4, 5], 2⟩ : SLList Int) = 2 := by
  have h := getSize_narrowing.1 Int ⟨[4, 5], 2⟩ (by rfl)
    (by norm_num [intMax])
  simpa using h
